import Mathlib

/-!
# Verification of the gosh multi-host SSH orchestration engine

A shallow embedding, in Lean 4, of the pure/observable parts of the gosh
repository (a tool that runs one shell command on many remote hosts and
merges the per-host output), together with theorems settling the stated
properties of the specification.

Strings from the Go source are modelled as `List Char`; Go maps as
association lists; external subprocess behaviour (ssh / scp exit status,
remote output streams, context cancellation) as explicit parameters.
-/

namespace Gosh

/-! ## Character and string helpers (mirroring the Go `strings` package) -/

/-- The ASCII escape character `\x1b`, the start of ANSI styling sequences. -/
def escChar : Char := Char.ofNat 27

/-- Newline. -/
def nlChar : Char := '\n'

/-- ASCII whitespace, as recognised by Go's `unicode.IsSpace` on the ASCII
range (space, tab, newline, carriage return, vertical tab, form feed). -/
def isSpaceChar (c : Char) : Bool :=
  c == ' ' || c == '\t' || c == '\n' || c == '\r' || c == Char.ofNat 11 || c == Char.ofNat 12

/-- `strings.TrimLeft`-style trim of leading whitespace. -/
def trimLeftSpace (s : List Char) : List Char := s.dropWhile isSpaceChar

/-- Trim of trailing whitespace. -/
def trimRightSpace (s : List Char) : List Char := (s.reverse.dropWhile isSpaceChar).reverse

/-- Go `strings.TrimSpace`. -/
def trimSpace (s : List Char) : List Char := trimLeftSpace (trimRightSpace s)

/-- Go `strings.TrimRight(s, "\r\n")`: drop trailing carriage returns and
newlines. -/
def trimRightRN (s : List Char) : List Char :=
  (s.reverse.dropWhile (fun c => c == '\r' || c == '\n')).reverse

/-- Go `strings.TrimRight(s, "\n")`: drop trailing newlines only. -/
def trimRightNl (s : List Char) : List Char :=
  (s.reverse.dropWhile (fun c => c == '\n')).reverse

/-- Go `strings.Split(s, "\n")`: split at every newline; always returns at
least one (possibly empty) part. -/
def splitOnNl : List Char → List (List Char)
  | [] => [[]]
  | c :: rest =>
    if c = nlChar then [] :: splitOnNl rest
    else
      match splitOnNl rest with
      | [] => [[c]]
      | s :: ss => (c :: s) :: ss

/-- Append a character to the last part of a split (used to describe
`splitOnNl` of `s ++ [c]` for a non-newline `c`). -/
def appendLast (c : Char) : List (List Char) → List (List Char)
  | [] => [[c]]
  | [s] => [s ++ [c]]
  | s :: ss => s :: appendLast c ss

/-- First-occurrence splitter: `splitFirst pat s` returns
`some (before, after)` where `before` is the part of `s` strictly before the
first occurrence of `pat` and `after` the part strictly after it, or `none`
when `pat` does not occur.  `Go strings.Contains(s, pat)` corresponds to
`(splitFirst pat s).isSome`, and `strings.Split(s, pat)[0]` to `before`. -/
def splitFirst (pat : List Char) : List Char → Option (List Char × List Char)
  | [] => if pat.isEmpty then some ([], []) else none
  | c :: s =>
    if pat.isPrefixOf (c :: s) then some ([], (c :: s).drop pat.length)
    else
      match splitFirst pat s with
      | some (b, a) => some (c :: b, a)
      | none => none

/-- Concatenate lines, terminating each with a newline (the shape of the
reader's internal buffer when each read chunk is one newline-terminated
line). -/
def joinNl : List (List Char) → List Char
  | [] => []
  | l :: L => l ++ nlChar :: joinNl L

/-! ## ANSI escape stripping (`stripAnsiEscapeSequences` and the regex
`\x1b\[[0-9;]*[a-zA-Z]` from `pkg/io.go`) -/

/-- Try to match the tail of an ANSI escape sequence (everything after the
initial `ESC`): a literal `[`, then digits and semicolons, then an ASCII
letter.  Returns the remainder of the input after the match. -/
def matchAnsi (s : List Char) : Option (List Char) :=
  match s with
  | '[' :: rest =>
    match rest.dropWhile (fun c => c.isDigit || c == ';') with
    | c :: r => if c.isAlpha then some r else none
    | [] => none
  | _ => none

/-- The scanning loop of the regex replacement, written with explicit fuel
so that it is structural (the input shrinks by at least one character per
step, so any `fuel ≥ s.length` computes the fixpoint; `stripAnsi` passes
`s.length`). -/
def stripAnsiGo : Nat → List Char → List Char
  | _, [] => []
  | 0, s => s
  | fuel + 1, c :: rest =>
    if c = escChar then
      match matchAnsi rest with
      | some r => stripAnsiGo fuel r
      | none => c :: stripAnsiGo fuel rest
    else c :: stripAnsiGo fuel rest

/-- `stripAnsiEscapeSequences` from `pkg/io.go`: remove, in one left-to-right
pass, every leftmost non-overlapping match of `ESC [ [0-9;]* [a-zA-Z]`
(the semantics of Go's `regexp.ReplaceAllString` with the empty
replacement). -/
def stripAnsi (s : List Char) : List Char := stripAnsiGo s.length s

/-- Fuelled scan checking that every `ESC` in the string opens a complete
ANSI escape sequence. -/
def allEscOpenGo : Nat → List Char → Bool
  | _, [] => true
  | 0, _ => false
  | fuel + 1, c :: rest =>
    if c = escChar then
      match matchAnsi rest with
      | some r => allEscOpenGo fuel r
      | none => false
    else allEscOpenGo fuel rest

/-- Every `ESC` in the string opens a complete ANSI escape sequence (the
well-behaved-shell condition). -/
def allEscOpen (s : List Char) : Bool := allEscOpenGo s.length s

/-- Whether the string still contains a full ANSI escape sequence
(`ESC [ [0-9;]* [a-zA-Z]`) anywhere. -/
def containsAnsiSeq : List Char → Bool
  | [] => false
  | c :: rest => (c = escChar && (matchAnsi rest).isSome) || containsAnsiSeq rest

/-! ## The per-host output reader (`ReadHostOutput` from `pkg/io.go`)

The reader consumes the chunks returned by `bufio.Reader.ReadString('\n')`
on the merged stdout/stderr stream of one host.  Each non-empty chunk is
ANSI-stripped, `Last login` banner chunks are skipped, the rest accumulates
in a buffer; when the buffer contains the session's prompt marker the part
before the first marker occurrence is trimmed of trailing `\r\n`, split at
newlines, and each non-blank line is delivered as a `HostOutput` record
(the buffer is then reset).  Read errors other than end-of-stream are not
modelled: the stream is given as its list of chunks. -/

/-- `HostOutput` from `pkg/io.go`: one delivered record. -/
structure HostOutput where
  host : String
  data : List Char
  colorCode : String
deriving DecidableEq, Repr

/-- The `Last login` banner test (`strings.HasPrefix(data, "Last login")`). -/
def lastLoginMarker : List Char := "Last login".data

/-- The prompt marker installed by `NewHostSession` (`pkg/session.go`). -/
def promptMarker : List Char := "__POLYSH_PROMPT__".data

/-- Deliver one line of command output: trim surrounding whitespace and drop
blank lines (the inner loop of `ReadHostOutput`). -/
def emitLine (hostS colorS : String) (l : List Char) : Option HostOutput :=
  let t := trimSpace l
  if t.isEmpty then none else some ⟨hostS, t, colorS⟩

/-- Deliver the buffered command output found before the prompt marker:
trim trailing `\r\n`, split at newlines, deliver each non-blank line. -/
def emitFromOutput (hostS colorS : String) (commandOutput : List Char) : List HostOutput :=
  (splitOnNl (trimRightRN commandOutput)).filterMap (emitLine hostS colorS)

/-- Process one chunk read from the host's stream: returns the new buffer
and the records delivered for this chunk. -/
def processChunk (marker : List Char) (hostS colorS : String)
    (buffer data : List Char) : List Char × List HostOutput :=
  if data.isEmpty then (buffer, [])
  else
    let data := stripAnsi data
    if lastLoginMarker.isPrefixOf data then (buffer, [])
    else
      let buffer := buffer ++ data
      match splitFirst marker buffer with
      | some (before, _) => ([], emitFromOutput hostS colorS before)
      | none => (buffer, [])

/-- The reader's main loop over the stream's chunks. -/
def readLoop (marker : List Char) (hostS colorS : String)
    (buffer : List Char) : List (List Char) → List HostOutput
  | [] => []
  | data :: rest =>
    let p := processChunk marker hostS colorS buffer data
    p.2 ++ readLoop marker hostS colorS p.1 rest

/-- `ReadHostOutput` from `pkg/io.go`, as a function from the host's chunk
stream to the list of records it delivers, in delivery order. -/
def readHostOutput (hostS colorS : String) (marker : List Char)
    (chunks : List (List Char)) : List HostOutput :=
  readLoop marker hostS colorS [] chunks

/-- The chunk stream produced by a remote command that writes the lines `L`
(each chunk one newline-terminated line) and then shows its prompt
marker. -/
def chunksOf (L : List (List Char)) (marker : List Char) : List (List Char) :=
  L.map (fun l => l ++ [nlChar]) ++ [marker]

/-- An interleaving of two lists: `Interleave xs ys zs` holds when `zs` is a
merge of `xs` and `ys` that preserves the relative order inside each.  This
is how the single output channel combines records of concurrently producing
hosts. -/
inductive Interleave : List HostOutput → List HostOutput → List HostOutput → Prop
  | nil : Interleave [] [] []
  | left {x xs ys zs} : Interleave xs ys zs → Interleave (x :: xs) ys (x :: zs)
  | right {y xs ys zs} : Interleave xs ys zs → Interleave xs (y :: ys) (y :: zs)

/-! ## The one-shot dispatcher (`ExecuteCommand` from `pkg/commands.go` and
`RunSSH` from the connection-manager source file)

`ExecuteCommand` launches one goroutine per host of the list, each running
`RunSSH host command …`, and waits for all of them.  `RunSSH` runs the
external ssh client, prints each non-blank stdout line, then each non-blank
stderr line, prefixed with the host, and finally prints a single
`ERROR: …` notice exactly when the remote command exited with an error;
otherwise the task simply completes.  The external client's behaviour is a
parameter: an environment assigning each host its captured stdout, stderr
and exit error. -/

/-- Result of one external ssh invocation against one host. -/
structure RemoteResult where
  stdout : List Char
  stderr : List Char
  exitErr : Option String
deriving DecidableEq, Repr

/-- A record printed by a per-host execution task. -/
inductive RRecord where
  | line (host : String) (text : List Char)
  | errorNotice (host : String) (msg : String)
deriving DecidableEq, Repr

/-- The terminal event of a per-host execution task: a failure notice, or
plain successful completion of the task. -/
inductive Terminal where
  | failed (host : String) (msg : String)
  | completed (host : String)
deriving DecidableEq, Repr

/-- `strings.Split(strings.TrimRight(s, "\n"), "\n")` as used by `RunSSH`
on the captured stdout/stderr. -/
def splitOutputLines (s : List Char) : List (List Char) :=
  splitOnNl (trimRightNl s)

/-- The block of `RunSSH` that prints one captured stream: skipped entirely
when the stream is empty, otherwise each non-blank line becomes a record. -/
def printStream (host : String) (s : List Char) : List RRecord :=
  if s.isEmpty then []
  else (splitOutputLines s).filterMap
    (fun l => if l.isEmpty then none else some (.line host l))

/-- The records printed by `RunSSH host … `: stdout lines, stderr lines,
then the error notice exactly when ssh reported a failure. -/
def runSSH (host : String) (res : RemoteResult) : List RRecord :=
  printStream host res.stdout ++ printStream host res.stderr ++
    (match res.exitErr with
     | some e => [.errorNotice host e]
     | none => [])

/-- The terminal event of `RunSSH`: the failure notice when ssh reported an
error, successful completion of the task otherwise. -/
def runSSHTerminal (host : String) (res : RemoteResult) : Terminal :=
  match res.exitErr with
  | some e => .failed host e
  | none => .completed host

/-- One per-host execution launched by the dispatcher. -/
structure HostExec where
  host : String
  trace : List RRecord
  terminal : Terminal
deriving DecidableEq, Repr

/-- `ExecuteCommand hosts …`: one execution per host of the list, each
independent given the external environment `env`. -/
def executeCommand (hosts : List String) (env : String → RemoteResult) : List HostExec :=
  hosts.map (fun h => ⟨h, runSSH h (env h), runSSHTerminal h (env h)⟩)

/-- Recognise a failure notice among printed records. -/
def isErrorNotice : RRecord → Bool
  | .errorNotice _ _ => true
  | _ => false

/-- Recognise a failure terminal event. -/
def Terminal.isFailure : Terminal → Bool
  | .failed _ _ => true
  | _ => false

/-! ## The streaming per-host runner (`runSSHStreaming`)

Two goroutines relay the remote stdout and stderr line by line; each checks
the shared cancellation context before relaying a line and stops relaying
once it observes cancellation.  After `cmd.Wait()` returns, a
`ERROR: Command failed: …` notice is printed only when the wait reported an
error *and* the context was not cancelled.  `cancelled` tells whether the
shared scope was cancelled during the run; `kOut`/`kErr` are the numbers of
lines each relay goroutine managed to deliver before observing the
cancellation (immaterial when not cancelled). -/

/-- One relay goroutine: all lines when not cancelled, a prefix of them when
the scope was cancelled mid-stream. -/
def relayLines (host : String) (cancelled : Bool) (k : Nat)
    (lines : List (List Char)) : List RRecord :=
  (if cancelled then lines.take k else lines).map (fun l => .line host l)

/-- `runSSHStreaming` as the list of records the task prints. -/
def runSSHStreaming (host : String) (stdoutLines stderrLines : List (List Char))
    (cancelled : Bool) (kOut kErr : Nat) (waitErr : Option String) : List RRecord :=
  relayLines host cancelled kOut stdoutLines ++
  relayLines host cancelled kErr stderrLines ++
    (match waitErr with
     | some e => if cancelled then [] else [.errorNotice host ("Command failed: " ++ e)]
     | none => [])

/-! ## The persistent connection manager (`SSHConnectionManager`)

The manager owns `connections : map host → *SSHConnection` (modelled as an
association list mutated exactly where the Go code mutates the map), the
socket directory, and indirectly the control-socket files on disk
(`fsFiles`, a set of paths).  `opened` counts the external
`ssh -M -S socket …` invocations, so that "no new external connection was
opened" is observable.  External behaviour (whether the `ssh -M` dial and
the per-host `ssh -O exit` close succeed) is passed as parameters; the
close result is ignored by the code (`_ = cmd.Run()`) and therefore unused
here too. -/

/-- `SSHConnection`: one persistent multiplexed connection. -/
structure MConn where
  host : String
  socketPath : String
  connected : Bool
  lastUsed : Nat
deriving DecidableEq, Repr

/-- The observable state of an `SSHConnectionManager` plus the socket files
it has created on disk. -/
structure MState where
  connections : List (String × MConn)
  socketDir : String
  fsFiles : List String
  dirExists : Bool
  opened : Nat
deriving DecidableEq, Repr

/-- `strings.ReplaceAll(host, "/", "_")`. -/
def sanitizeHost (h : String) : String :=
  String.map (fun c => if c = '/' then '_' else c) h

/-- `getSocketPath`: `filepath.Join(socketDir, "gosh-" + sanitized host)`. -/
def getSocketPath (dir host : String) : String :=
  dir ++ "/" ++ ("gosh-" ++ sanitizeHost host)

/-- Whether path `p` lies inside directory `dir`. -/
def underDir (dir p : String) : Bool :=
  (dir.data ++ ['/']).isPrefixOf p.data

/-- Go map read `cm.connections[host]`. -/
def lookupConn (st : MState) (host : String) : Option MConn :=
  (st.connections.find? (fun p => p.1 == host)).map (fun p => p.2)

/-- Go map write `cm.connections[host] = conn`: replace the entry when the
key is present, append it otherwise. -/
def mapAssign (k : String) (v : MConn) (m : List (String × MConn)) :
    List (String × MConn) :=
  if m.any (fun p => p.1 == k) then
    m.map (fun p => if p.1 == k then (k, v) else p)
  else m ++ [(k, v)]

/-- Go map delete `delete(cm.connections, host)`. -/
def mapDelete (k : String) (m : List (String × MConn)) : List (String × MConn) :=
  m.filter (fun p => ¬ p.1 == k)

/-- Record a created socket file. -/
def fsAdd (p : String) (fs : List String) : List String :=
  if fs.contains p then fs else fs ++ [p]

/-- The freshness window: `5 * time.Minute` in nanoseconds. -/
def fiveMinutes : Nat := 5 * 60 * 1000000000

/-- `cleanupConnection host`: when the host has an entry, run
`ssh -S socket -O exit host` (result ignored), remove the socket file, and
delete the map entry; otherwise do nothing.  `_closeOk` is the ignored
result of the external close. -/
def cleanupConnection (_closeOk : Bool) (st : MState) (host : String) : MState :=
  match lookupConn st host with
  | some conn =>
    { st with
      fsFiles := st.fsFiles.filter (fun p => p ≠ conn.socketPath)
      connections := mapDelete host st.connections }
  | none => st

/-- The dial step of `establishConnection`: run `ssh -M -S socket … host
true` (counted in `opened`); on success store the connection record and the
socket artifact, on failure return the dial error with nothing stored. -/
def establishNew (connectOk : Bool) (now : Nat) (st : MState) (host : String) :
    Option String × MState :=
  let socketPath := getSocketPath st.socketDir host
  let st1 := { st with opened := st.opened + 1 }
  if connectOk then
    (none,
     { st1 with
       connections := mapAssign host ⟨host, socketPath, true, now⟩ st1.connections
       fsFiles := fsAdd socketPath st1.fsFiles })
  else (some ("failed to establish SSH connection to " ++ host), st1)

/-- `establishConnection` (the variant with the freshness window): when a
connected entry exists and was last used within `fiveMinutes`, refresh its
`lastUsed` field in place and return with no external call; when the entry
is connected but stale, clean it up first; in every other case dial a new
multiplexed connection. -/
def establishConnection (connectOk : Bool) (now : Nat) (st : MState) (host : String) :
    Option String × MState :=
  match lookupConn st host with
  | some conn =>
    if conn.connected then
      if now - conn.lastUsed < fiveMinutes then
        (none,
         { st with
           connections := st.connections.map
             (fun p => if p.1 == host then (p.1, { p.2 with lastUsed := now }) else p) })
      else establishNew connectOk now (cleanupConnection true st host) host
    else establishNew connectOk now st host
  | none => establishNew connectOk now st host

/-- Whether `establishConnection` would take the fresh-hit path. -/
def freshHitB (st : MState) (host : String) (now : Nat) : Bool :=
  match lookupConn st host with
  | some conn => conn.connected && decide (now - conn.lastUsed < fiveMinutes)
  | none => false

/-- `cleanupAllConnections`: iterate over the current keys of the map
cleaning up each host, then `os.RemoveAll(socketDir)` (which also deletes
any stray artifact left by hosts that never successfully connected). -/
def cleanupAllConnections (closeOk : String → Bool) (st : MState) : MState :=
  let st1 := (st.connections.map Prod.fst).foldl
    (fun s h => cleanupConnection (closeOk h) s h) st
  { st1 with
    fsFiles := st1.fsFiles.filter (fun p => ¬ underDir st1.socketDir p)
    dirExists := false }

/-! ## Uploads and control commands (`pkg/commands.go`,
`pkg/control_commands.go`)

`uploadFile`/`UploadFile` first check that the local file exists
(`os.Stat`) and return immediately with a local error message when it does
not; otherwise they run one `scp` per host.  `UploadFileToHosts` — the
handler behind the `:upload` control command of `HandleControlCommand` —
runs one `scp` per connected session with *no* local existence check.  The
local filesystem is a set of paths, the external `scp` outcome a function
of the host. -/

/-- Events observable from an upload operation. -/
inductive UpEvent where
  | localMissing (path : List Char)
  | scpAttempt (host : String)
  | copyError (host : String)
  | uploadOk (host : String)
deriving DecidableEq, Repr

/-- One `scp` run against one host: the attempt, then its outcome. -/
def runSCP (scpOk : String → Bool) (host : String) : List UpEvent :=
  .scpAttempt host :: (if scpOk host then [.uploadOk host] else [.copyError host])

/-- `uploadFile` (and `UploadFile`): local existence check first, then one
`scp` per host. -/
def uploadFile (fs : List (List Char)) (hosts : List String) (fp : List Char)
    (scpOk : String → Bool) : List UpEvent :=
  if ¬ fs.contains fp then [.localMissing fp]
  else (hosts.map (runSCP scpOk)).flatten

/-- `UploadFileToHosts` (`pkg/control_commands.go`): one `scp` per session,
with no local existence check. -/
def uploadFileToHosts (sessions : List String) (_fp : List Char)
    (scpOk : String → Bool) : List UpEvent :=
  (sessions.map (runSCP scpOk)).flatten

/-- `SplitCommand` (`pkg/control_commands.go`): split at spaces outside
double quotes, dropping the quote characters; empty parts are never
emitted. -/
def splitCommand (input : List Char) : List (List Char) :=
  let step := fun (st : List (List Char) × List Char × Bool) (r : Char) =>
    if r = ' ' then
      if st.2.2 then (st.1, st.2.1 ++ [r], st.2.2)
      else if st.2.1.isEmpty then st
      else (st.1 ++ [st.2.1], [], st.2.2)
    else if r = '"' then (st.1, st.2.1, !st.2.2)
    else (st.1, st.2.1 ++ [r], st.2.2)
  let final := input.foldl step ([], [], false)
  if final.2.1.isEmpty then final.1 else final.1 ++ [final.2.1]

/-- Outcome of `HandleControlCommand`. -/
inductive CtrlResult where
  | invalid
  | usage
  | unknown (cmd : List Char)
  | upload (events : List UpEvent)
deriving DecidableEq, Repr

/-- `HandleControlCommand` (`pkg/control_commands.go`).  The result is
`none` exactly when the Go code indexes `commandParts[0]` on an empty
slice, i.e. panics with an out-of-range access. -/
def handleControlCommand (scpOk : String → Bool) (sessions : List String)
    (input : List Char) : Option CtrlResult :=
  if input.length < 2 then some .invalid
  else
    match splitCommand (input.drop 1) with
    | [] => none
    | c :: rest =>
      if c = "upload".data then
        match rest with
        | [] => some .usage
        | fp :: _ => some (.upload (uploadFileToHosts sessions fp scpOk))
      else some (.unknown c)

/-! ## The interactive loop (`InteractiveMode`, streaming variant)

One iteration of the readline loop: trim the user's line, dispatch on the
control tokens, and otherwise run the command on every host of the
connection manager's current map with a per-dispatch cancellation scope.
An operator interrupt during a broadcast cancels only that scope: a
`Command interrupted by user` notice is printed, the loop falls through to
the next `Readline()` call, and the connection manager is untouched.
`executeCommandStreaming` iterates over the *existing* connections (their
stored control sockets) and never establishes or closes one. -/

/-- Events observable from one loop iteration. -/
inductive IEvent where
  | interruptNotice
  | execStarted (host : String) (socket : String)
  | connClosed (host : String)
  | established (host : String)
  | printHelp
  | printHosts (hosts : List String)
  | promptUsage
  | uploadEvents (evs : List UpEvent)
  | verboseToggled (b : Bool)
deriving DecidableEq, Repr

/-- Whether the loop keeps running after the iteration. -/
inductive LoopAction where
  | continueLoop
  | exitLoop
deriving DecidableEq, Repr

/-- `executeCommandStreaming`: one streaming execution per existing
connection, through its stored control socket. -/
def executeCommandStreaming (st : MState) : List IEvent :=
  st.connections.map (fun p => .execStarted p.1 p.2.socketPath)

/-- `uploadFile(connManager, filepath)`: existence check, then one `scp`
per existing connection. -/
def uploadFileCM (fs : List (List Char)) (st : MState) (fp : List Char)
    (scpOk : String → Bool) : List UpEvent :=
  if ¬ fs.contains fp then [.localMissing fp]
  else ((st.connections.map Prod.fst).map (runSCP scpOk)).flatten

/-- The guard conditions of the loop's `switch`, negated: a line that
reaches the broadcast (default) branch. -/
def isDefaultLine (l : List Char) : Bool :=
  !(l.isEmpty ||
    l == ":exit".data || l == ":quit".data ||
    l == ":help".data || l == ":hosts".data ||
    ":upload ".data.isPrefixOf l ||
    l == ":verbose".data)

/-- One iteration of the interactive loop body on user line `rawLine`.
`interrupted` tells whether the operator raised an interrupt while the
broadcast (if any) was executing.  Returns the printed events, whether the
loop continues, the connection-manager state afterwards, and the verbose
flag afterwards. -/
def loopIter (connectedHosts : List String) (fs : List (List Char))
    (scpOk : String → Bool) (st : MState) (verbose : Bool)
    (rawLine : List Char) (interrupted : Bool) :
    List IEvent × LoopAction × MState × Bool :=
  let line := trimSpace rawLine
  if line.isEmpty then ([], .continueLoop, st, verbose)
  else if line = ":exit".data ∨ line = ":quit".data then ([], .exitLoop, st, verbose)
  else if line = ":help".data then ([.printHelp], .continueLoop, st, verbose)
  else if line = ":hosts".data then ([.printHosts connectedHosts], .continueLoop, st, verbose)
  else if ":upload ".data.isPrefixOf line then
    let fp := trimSpace (line.drop (":upload".data.length))
    if fp.isEmpty then ([.promptUsage], .continueLoop, st, verbose)
    else ([.uploadEvents (uploadFileCM fs st fp scpOk)], .continueLoop, st, verbose)
  else if line = ":verbose".data then
    ([.verboseToggled (!verbose)], .continueLoop, st, !verbose)
  else
    ((if interrupted then [.interruptNotice] else []) ++ executeCommandStreaming st,
     .continueLoop, st, verbose)

/-- Recognise a close event. -/
def isConnClosed : IEvent → Bool
  | .connClosed _ => true
  | _ => false

/-- Recognise an establish event. -/
def isEstablished : IEvent → Bool
  | .established _ => true
  | _ => false

/-- Recognise an execution-start event. -/
def isExecStarted : IEvent → Bool
  | .execStarted _ _ => true
  | _ => false

/-! ## The progress bar (`printProgressBar`)

`printProgressBar(current, total, width)` returns immediately (printing
nothing) when `total == 0`; otherwise it builds a bar by iterating
`for i := range width` — zero iterations when `width <= 0` — choosing a
filled cell when `i < filled`, prints the bar with the `current/total`
counts, and prints a newline exactly when `current == total`.  The value
`filled = int(float64(width) * float64(current)/float64(total))` is a
floating-point computation; it only selects which cells are filled, so it
is passed as a parameter and everything is proved for every value of it. -/

/-- Output items of `printProgressBar`: the bar line (cells, `true` for a
filled cell, with the current/total counts that follow it) and the final
newline. -/
inductive PBItem where
  | bar (cells : List Bool) (current total : Int)
  | newlineOut
deriving DecidableEq, Repr

/-- `for i := range width` over a Go `int`: `width` iterations when
positive, none otherwise. -/
def goIntRange (w : Int) : List Int :=
  (List.range w.toNat).map Int.ofNat

/-- `printProgressBar`. -/
def printProgressBar (filled current total width : Int) : List PBItem :=
  if total = 0 then []
  else
    [.bar ((goIntRange width).map (fun i => decide (i < filled))) current total] ++
      (if current = total then [.newlineOut] else [])

/-! ## Helper predicates for the upload events -/

/-- Recognise a remote copy attempt. -/
def isScpAttempt : UpEvent → Bool
  | .scpAttempt _ => true
  | _ => false

/-- Recognise a per-host copy error. -/
def isCopyError : UpEvent → Bool
  | .copyError _ => true
  | _ => false

/-- A concrete external environment used by witnesses: `h1` succeeds with
one line of output, every other host fails. -/
def demoEnv : String → RemoteResult := fun h =>
  if h = "h1" then ⟨"x\n".data, [], none⟩ else ⟨[], [], some "exit status 1"⟩

/-- A concrete manager state holding one fresh connection to `h1`. -/
def demoStFresh : MState :=
  { connections := [("h1", ⟨"h1", "/tmp/gosh-ssh-sockets/gosh-h1", true, 50⟩)]
    socketDir := "/tmp/gosh-ssh-sockets"
    fsFiles := ["/tmp/gosh-ssh-sockets/gosh-h1"]
    dirExists := true
    opened := 1 }

/-- A concrete manager state holding no connections. -/
def demoStEmpty : MState :=
  { connections := []
    socketDir := "/tmp/gosh-ssh-sockets"
    fsFiles := []
    dirExists := true
    opened := 0 }

/-- The well-formedness of one produced line: no embedded newline or
escape character, no prompt-marker occurrence, not a `Last login`
banner. -/
def GoodLine (pat l : List Char) : Prop :=
  nlChar ∉ l ∧ escChar ∉ l ∧ ¬ pat <:+: l ∧ ¬ lastLoginMarker <+: l

/-- The well-formedness of a prompt marker: non-empty, no newline or
escape character, not starting with the `Last login` banner. -/
def GoodMarker (pat : List Char) : Prop :=
  pat ≠ [] ∧ nlChar ∉ pat ∧ escChar ∉ pat ∧ ¬ lastLoginMarker <+: pat

/-! ## C5 — cancellation is not a failure -/

/-- A relay goroutine only emits plain line records, never a failure
notice. -/
theorem countP_isErrorNotice_relayLines (host : String) (cancelled : Bool)
    (k : Nat) (lines : List (List Char)) :
    (relayLines host cancelled k lines).countP isErrorNotice = 0 := by
  unfold relayLines
  rw [List.countP_eq_zero]
  intro a ha
  rw [List.mem_map] at ha
  obtain ⟨l, -, rfl⟩ := ha
  simp [isErrorNotice]

/-- C5: a per-host streaming execution task emits a `Command failed` notice
exactly when the remote command's wait reported an error while the shared
cancellation scope was still uncancelled; in particular a task that
terminates because the scope was cancelled emits no command-failed record. -/
theorem runSSHStreaming_cancelled_no_failure_notice
    (host : String) (outL errL : List (List Char)) (cancelled : Bool)
    (kOut kErr : Nat) (waitErr : Option String) :
    (runSSHStreaming host outL errL cancelled kOut kErr waitErr).countP isErrorNotice
      = if waitErr.isSome && !cancelled then 1 else 0 := by
  unfold runSSHStreaming
  rw [List.countP_append, List.countP_append,
    countP_isErrorNotice_relayLines, countP_isErrorNotice_relayLines]
  cases waitErr <;> cases cancelled <;> simp [isErrorNotice]

/-! ## C10 — the progress bar -/

/-- C10 (amended claim): `printProgressBar` prints nothing when `total` is
zero (the percentage division is guarded); when `total` is non-zero it
prints one bar line carrying exactly `max width 0` cells and the
current/total counts, followed by a newline exactly when `current` equals
`total`.  Proved for every value of the floating-point `filled`
computation. -/
theorem printProgressBar_spec (filled current total width : Int) :
    (total = 0 → printProgressBar filled current total width = []) ∧
    (total ≠ 0 →
      printProgressBar filled current total width
        = PBItem.bar ((goIntRange width).map (fun i => decide (i < filled))) current total
            :: (if current = total then [PBItem.newlineOut] else []) ∧
      (((goIntRange width).map (fun i => decide (i < filled))).length : Int)
        = max width 0) := by
  constructor
  · intro h
    simp [printProgressBar, h]
  · intro h
    refine ⟨by simp [printProgressBar, h], ?_⟩
    simp [goIntRange]

/-- Witness for `printProgressBar_spec` at `total = 3`. -/
theorem printProgressBar_spec_witness :
    printProgressBar 1 2 3 4
      = PBItem.bar [true, false, false, false] 2 3
          :: (if (2 : Int) = 3 then [PBItem.newlineOut] else [])
    ∧ (([true, false, false, false] : List Bool).length : Int) = max 4 0 := by
  have h := (printProgressBar_spec 1 2 3 4).2 (by decide)
  refine ⟨?_, by decide⟩
  rw [h.1]
  decide

/-- C10 counterexample: the claim promises, for every integer `width`, a
bar of exactly `width` cells; at `width = -1` (and `total = 2 ≠ 0`) the
rendered bar has `0` cells. -/
theorem printProgressBar_negative_width_zero_cells :
    printProgressBar 0 1 2 (-1) = [PBItem.bar [] 1 2] ∧ (([] : List Bool).length : Int) ≠ -1 := by
  decide

/-! ## C9 — `HandleControlCommand` on `": "` -/

/-- C9: the claim that `commandParts[0]` is always defined fails: on the
input `": "` (length 2, starting with `':'`), `SplitCommand` returns an
empty slice and the Go code indexes it out of range (a panic), modelled
here by the `none` result. -/
theorem handleControlCommand_colon_space_out_of_range :
    handleControlCommand (fun _ => true) ["h1"] ": ".data = none := by
  decide

/-! ## C4 — uploads and the local existence check -/

/-- C4 counterexample: the `:upload` control command handled by
`HandleControlCommand` performs *no* local existence check: with hosts
`["h1"]` and `missing.txt` absent locally (so scp fails), one remote copy
is attempted and one CopyError is recorded against `h1`, where the claim
promised zero. -/
theorem handleControlCommand_upload_attempts_without_check :
    handleControlCommand (fun _ => false) ["h1"] ":upload missing.txt".data
      = some (CtrlResult.upload [UpEvent.scpAttempt "h1", UpEvent.copyError "h1"])
    ∧ [UpEvent.scpAttempt "h1", UpEvent.copyError "h1"].countP isScpAttempt ≠ 0 := by
  decide

/-- C4 (amended claim): every upload invocation that goes through
`uploadFile`/`UploadFile` (the one-shot path and the readline interactive
loops) fails the local existence check when the source path does not exist
and returns before any remote copy is attempted, producing zero per-host
copy attempts and zero CopyError records. -/
theorem uploadFile_checks_existence (fs : List (List Char)) (hosts : List String)
    (fp : List Char) (scpOk : String → Bool) (h : fp ∉ fs) :
    uploadFile fs hosts fp scpOk = [.localMissing fp] ∧
    (uploadFile fs hosts fp scpOk).countP isScpAttempt = 0 ∧
    (uploadFile fs hosts fp scpOk).countP isCopyError = 0 := by
  unfold uploadFile
  simp [h, isScpAttempt, isCopyError]

/-- Witness for `uploadFile_checks_existence`. -/
theorem uploadFile_checks_existence_witness :
    uploadFile [] ["h1"] "missing.txt".data (fun _ => false)
      = [.localMissing "missing.txt".data] ∧
    (uploadFile [] ["h1"] "missing.txt".data (fun _ => false)).countP isScpAttempt = 0 ∧
    (uploadFile [] ["h1"] "missing.txt".data (fun _ => false)).countP isCopyError = 0 :=
  uploadFile_checks_existence [] ["h1"] "missing.txt".data (fun _ => false) (by simp)

/-! ## C1 — one execution and one terminal record per host -/

/-- `printStream` never prints a failure notice. -/
theorem countP_isErrorNotice_printStream (host : String) (s : List Char) :
    (printStream host s).countP isErrorNotice = 0 := by
  unfold printStream
  split
  · simp
  · rw [List.countP_eq_zero]
    intro a ha
    obtain ⟨l, -, hl⟩ := List.mem_filterMap.mp ha
    split at hl
    · simp at hl
    · cases hl
      simp [isErrorNotice]

/-- C1: dispatching a command over a non-empty duplicate-free host list
launches exactly one per-host execution per listed host and none for any
other host, and each execution carries exactly one terminal record — its
trace holds one failure notice when ssh reported an error and none
otherwise, and its terminal event is a failure exactly in the error
case. -/
theorem executeCommand_one_terminal_per_host (hosts : List String)
    (env : String → RemoteResult) (hne : hosts ≠ []) (hnd : hosts.Nodup) :
    (executeCommand hosts env).map HostExec.host = hosts ∧
    (∀ h ∈ hosts, ((executeCommand hosts env).filter (fun e => e.host == h)).length = 1) ∧
    (∀ h, h ∉ hosts → (executeCommand hosts env).filter (fun e => e.host == h) = []) ∧
    (∀ e ∈ executeCommand hosts env,
      e.terminal.isFailure = (env e.host).exitErr.isSome ∧
      e.trace.countP isErrorNotice
        = (if (env e.host).exitErr.isSome then 1 else 0)) := by
  refine ⟨?_, ?_, ?_, ?_⟩
  · simp [executeCommand, Function.comp_def]
  · intro h hh
    rw [executeCommand, List.filter_map]
    have hcnt : hosts.count h = 1 := List.count_eq_one_of_mem hnd hh
    simp only [Function.comp_def]
    rw [List.length_map, List.filter_beq]
    simp [hcnt]
  · intro h hh
    rw [executeCommand, List.filter_map]
    simp only [Function.comp_def]
    rw [List.filter_beq]
    simp [List.count_eq_zero_of_not_mem hh]
  · intro e he
    obtain ⟨h, -, rfl⟩ := List.mem_map.mp he
    refine ⟨?_, ?_⟩
    · cases hx : (env h).exitErr <;>
        simp [runSSHTerminal, hx, Terminal.isFailure]
    · cases hx : (env h).exitErr <;>
        simp [runSSH, hx, List.countP_append, countP_isErrorNotice_printStream,
          isErrorNotice]

/-- Witness for `executeCommand_one_terminal_per_host`: two hosts, one
succeeding and one failing. -/
theorem executeCommand_one_terminal_per_host_witness :
    (executeCommand ["h1", "h2"] demoEnv).map HostExec.host = ["h1", "h2"] ∧
    (∀ h ∈ ["h1", "h2"],
      ((executeCommand ["h1", "h2"] demoEnv).filter (fun e => e.host == h)).length = 1) ∧
    (∀ h, h ∉ ["h1", "h2"] →
      (executeCommand ["h1", "h2"] demoEnv).filter (fun e => e.host == h) = []) ∧
    (∀ e ∈ executeCommand ["h1", "h2"] demoEnv,
      e.terminal.isFailure = (demoEnv e.host).exitErr.isSome ∧
      e.trace.countP isErrorNotice
        = (if (demoEnv e.host).exitErr.isSome then 1 else 0)) :=
  executeCommand_one_terminal_per_host ["h1", "h2"] demoEnv (by decide) (by decide)

/-! ## C3 — idempotence of `establishConnection` -/

/-- `find?` over a map that preserves keys commutes with the map. -/
theorem find?_map_key_preserved (g : String × MConn → String × MConn)
    (hg : ∀ p, (g p).1 = p.1) (q : String) (m : List (String × MConn)) :
    (m.map g).find? (fun p => p.1 == q) = (m.find? (fun p => p.1 == q)).map g := by
  induction m with
  | nil => rfl
  | cons p m ih =>
    by_cases hpq : p.1 == q
    · simp [List.find?_cons, hg, hpq]
    · simp only [List.map_cons, List.find?_cons]
      rw [hg p] at *
      simp only [hpq]
      simpa using ih

/-- After a Go map write, looking the key up finds exactly the written
pair. -/
theorem find?_mapAssign (k : String) (v : MConn) (m : List (String × MConn)) :
    (mapAssign k v m).find? (fun p => p.1 == k) = some (k, v) := by
  unfold mapAssign
  split
  · rename_i hany
    induction m with
    | nil => simp at hany
    | cons p m ih =>
      by_cases hpk : p.1 = k
      · simp [List.find?_cons, hpk]
      · have hpk2 : (p.1 == k) = false := by simpa using hpk
        simp only [List.any_cons, hpk2, Bool.false_or] at hany
        simp only [List.map_cons, List.find?_cons]
        rw [if_neg (by simp [hpk2])]
        rw [hpk2]
        exact ih hany
  · rename_i hany
    rw [List.find?_append]
    have hnone : m.find? (fun p => p.1 == k) = none := by
      rw [List.find?_eq_none]
      intro p hp
      simp only [List.any_eq_true, not_exists, not_and, Bool.not_eq_true] at hany
      simp [hany p hp]
    simp [hnone]

/-- `cleanupConnection` and `establishNew` leave the socket directory
alone. -/
theorem cleanupConnection_socketDir (b : Bool) (st : MState) (h : String) :
    (cleanupConnection b st h).socketDir = st.socketDir := by
  unfold cleanupConnection
  cases lookupConn st h <;> rfl

/-- `cleanupConnection` leaves the dial counter alone. -/
theorem cleanupConnection_opened (b : Bool) (st : MState) (h : String) :
    (cleanupConnection b st h).opened = st.opened := by
  unfold cleanupConnection
  cases lookupConn st h <;> rfl

/-- C3: `establishConnection` is idempotent per host.  When a connected
entry for the host exists and was last used within the freshness window,
the call succeeds without dialling a new external connection or touching
the filesystem, the stored entry changes only in its last-used time, and
every other host's entry is untouched.  Otherwise (no entry, a
disconnected entry, or a stale one) a successful dial opens exactly one
new external connection and stores a fresh connected entry. -/
theorem establishConnection_idempotent (st : MState) (host : String)
    (now : Nat) (connectOk : Bool) :
    (∀ conn, lookupConn st host = some conn → conn.connected = true →
      now - conn.lastUsed < fiveMinutes →
      (establishConnection connectOk now st host).1 = none ∧
      (establishConnection connectOk now st host).2.opened = st.opened ∧
      (establishConnection connectOk now st host).2.fsFiles = st.fsFiles ∧
      lookupConn (establishConnection connectOk now st host).2 host
        = some { conn with lastUsed := now } ∧
      (∀ h2, ¬ h2 = host →
        lookupConn (establishConnection connectOk now st host).2 h2
          = lookupConn st h2)) ∧
    (freshHitB st host now = false →
      (establishConnection true now st host).1 = none ∧
      (establishConnection true now st host).2.opened = st.opened + 1 ∧
      lookupConn (establishConnection true now st host).2 host
        = some ⟨host, getSocketPath st.socketDir host, true, now⟩) := by
  constructor
  · intro conn hconn hc hfresh
    have hq : establishConnection connectOk now st host
        = (none,
           { st with
             connections := st.connections.map
               (fun p => if p.1 == host then (p.1, { p.2 with lastUsed := now }) else p) }) := by
      simp only [establishConnection, hconn]
      rw [if_pos hc, if_pos hfresh]
    rw [hq]
    refine ⟨rfl, rfl, rfl, ?_, ?_⟩
    · unfold lookupConn
      rw [find?_map_key_preserved _ (fun p => by dsimp; split <;> rfl) host]
      unfold lookupConn at hconn
      cases hf : st.connections.find? (fun p => p.1 == host) with
      | none => rw [hf] at hconn; simp at hconn
      | some p =>
        rw [hf] at hconn
        have hp1 : p.1 = host := by simpa using List.find?_some hf
        have hp2 : p.2 = conn := by simpa using hconn
        simp [hp1, hp2]
    · intro h2 hne2
      unfold lookupConn
      rw [find?_map_key_preserved _ (fun p => by dsimp; split <;> rfl) h2]
      cases hf : st.connections.find? (fun p => p.1 == h2) with
      | none => simp
      | some p =>
        have hp1 : p.1 = h2 := by simpa using List.find?_some hf
        have hp2 : ¬ p.1 = host := by
          intro e
          exact hne2 (by rw [← hp1, e])
        simp [hp2]
  · intro hmiss
    have key : ∀ st2 : MState, st2.opened = st.opened → st2.socketDir = st.socketDir →
        (establishNew true now st2 host).1 = none ∧
        (establishNew true now st2 host).2.opened = st.opened + 1 ∧
        lookupConn (establishNew true now st2 host).2 host
          = some ⟨host, getSocketPath st.socketDir host, true, now⟩ := by
      intro st2 hop hdir
      have e : establishNew true now st2 host
          = (none,
             { connections :=
                 mapAssign host
                   ⟨host, getSocketPath st2.socketDir host, true, now⟩ st2.connections
               socketDir := st2.socketDir
               fsFiles := fsAdd (getSocketPath st2.socketDir host) st2.fsFiles
               dirExists := st2.dirExists
               opened := st2.opened + 1 }) := rfl
      rw [e]
      refine ⟨rfl, by simpa using hop, ?_⟩
      unfold lookupConn
      dsimp only
      rw [find?_mapAssign, hdir]
      rfl
    have hmiss2 : (match lookupConn st host with
        | some conn => conn.connected && decide (now - conn.lastUsed < fiveMinutes)
        | none => false) = false := hmiss
    unfold establishConnection
    cases hconn : lookupConn st host with
    | none => exact key st rfl rfl
    | some conn =>
      rw [hconn] at hmiss2
      have hmiss3 : (conn.connected && decide (now - conn.lastUsed < fiveMinutes)) = false :=
        hmiss2
      by_cases hc : conn.connected = true
      · have hstale : ¬ now - conn.lastUsed < fiveMinutes := by
          rw [hc] at hmiss3
          simpa using hmiss3
        dsimp only
        rw [if_pos hc, if_neg hstale]
        exact key _ (cleanupConnection_opened _ _ _) (cleanupConnection_socketDir _ _ _)
      · dsimp only
        rw [if_neg hc]
        exact key st rfl rfl

/-- Witness for `establishConnection_idempotent`: a manager holding one
fresh connection to `h1` (idempotent branch) and one holding none (dial
branch). -/
theorem establishConnection_idempotent_witness :
    (establishConnection true 100 demoStFresh "h1").1 = none ∧
    (establishConnection true 100 demoStFresh "h1").2.opened = demoStFresh.opened ∧
    lookupConn (establishConnection true 100 demoStFresh "h1").2 "h1"
      = some ⟨"h1", "/tmp/gosh-ssh-sockets/gosh-h1", true, 100⟩ ∧
    (establishConnection true 0 demoStEmpty "h2").2.opened = demoStEmpty.opened + 1 ∧
    lookupConn (establishConnection true 0 demoStEmpty "h2").2 "h2"
      = some ⟨"h2", getSocketPath demoStEmpty.socketDir "h2", true, 0⟩ := by
  have h1 := (establishConnection_idempotent demoStFresh "h1" 100 true).1
    ⟨"h1", "/tmp/gosh-ssh-sockets/gosh-h1", true, 50⟩ (by decide) (by decide) (by decide)
  have h2 := (establishConnection_idempotent demoStEmpty "h2" 0 true).2 (by decide)
  exact ⟨h1.1, h1.2.1, h1.2.2.2.1, h2.2.1, h2.2.2⟩

/-! ## C6 — closing the whole registry -/

/-- The ignored result of the external `ssh -O exit` close never affects
`cleanupConnection` (the Go code discards it with `_ = cmd.Run()`). -/
theorem cleanupConnection_closeOk_irrelevant (a b : Bool) (st : MState) (h : String) :
    cleanupConnection a st h = cleanupConnection b st h := rfl

/-- The cleanup fold is likewise independent of the per-host close
results. -/
theorem foldl_cleanup_closeOk_irrelevant (keys : List String)
    (closeOk : String → Bool) (st : MState) :
    keys.foldl (fun s h => cleanupConnection (closeOk h) s h) st
      = keys.foldl (fun s h => cleanupConnection true s h) st := by
  induction keys generalizing st with
  | nil => rfl
  | cons k ks ih =>
    rw [List.foldl_cons, List.foldl_cons]
    exact ih _

/-- Folding `cleanupConnection` over a superset of the map's keys empties
the map. -/
theorem connections_after_cleanup_fold (keys : List String) :
    ∀ st : MState, (∀ p ∈ st.connections, p.1 ∈ keys) →
      (keys.foldl (fun s h => cleanupConnection true s h) st).connections = [] := by
  induction keys with
  | nil =>
    intro st h
    rw [List.foldl_nil]
    exact List.eq_nil_iff_forall_not_mem.mpr
      (fun p hp => absurd (h p hp) (List.not_mem_nil _))
  | cons k ks ih =>
    intro st h
    rw [List.foldl_cons]
    apply ih
    intro p hp
    unfold cleanupConnection at hp
    cases hl : lookupConn st k with
    | none =>
      rw [hl] at hp
      have hpst : p ∈ st.connections := hp
      have hpk : ¬ p.1 = k := by
        intro e
        unfold lookupConn at hl
        have hfind : List.find? (fun q => q.1 == k) st.connections = none := by
          cases hfind : List.find? (fun q => q.1 == k) st.connections with
          | none => rfl
          | some q => rw [hfind] at hl; simp at hl
        rw [List.find?_eq_none] at hfind
        have := hfind p hpst
        simp [e] at this
      rcases List.mem_cons.mp (h p hpst) with h1 | h1
      · exact absurd h1 hpk
      · exact h1
    | some conn =>
      rw [hl] at hp
      simp only [mapDelete, List.mem_filter] at hp
      obtain ⟨hpm, hpk⟩ := hp
      rcases List.mem_cons.mp (h p hpm) with h1 | h1
      · exact absurd h1 (by simpa using hpk)
      · exact h1

/-- The cleanup fold leaves the socket directory field alone. -/
theorem socketDir_after_cleanup_fold (keys : List String) :
    ∀ st : MState,
      (keys.foldl (fun s h => cleanupConnection true s h) st).socketDir = st.socketDir := by
  induction keys with
  | nil => intro st; rfl
  | cons k ks ih =>
    intro st
    rw [List.foldl_cons, ih, cleanupConnection_socketDir]

/-- Every socket artifact created by `establishConnection` lies inside the
manager's socket directory. -/
theorem getSocketPath_underDir (dir host : String) :
    underDir dir (getSocketPath dir host) = true := by
  unfold underDir getSocketPath
  have hdata : (dir ++ "/" ++ ("gosh-" ++ sanitizeHost host)).data
      = (dir.data ++ ['/']) ++ ("gosh-" ++ sanitizeHost host).data := by
    simp [String.data_append]
  rw [hdata]
  rw [List.isPrefixOf_iff_prefix]
  exact List.prefix_append _ _

/-- C6: after `cleanupAllConnections` returns, the host-to-connection map
is empty, no file under the socket directory remains on disk (covering the
socket of every host that ever connected and any stray artifact of hosts
that never successfully connected), the socket directory itself is gone,
and failing per-host closes are ignored: the result does not depend on
them. -/
theorem cleanupAllConnections_spec (closeOk : String → Bool) (st : MState) :
    (cleanupAllConnections closeOk st).connections = [] ∧
    (∀ p ∈ (cleanupAllConnections closeOk st).fsFiles, underDir st.socketDir p = false) ∧
    (cleanupAllConnections closeOk st).dirExists = false ∧
    (∀ closeOk2, cleanupAllConnections closeOk2 st = cleanupAllConnections closeOk st) ∧
    (∀ host, underDir st.socketDir (getSocketPath st.socketDir host) = true) := by
  unfold cleanupAllConnections
  rw [foldl_cleanup_closeOk_irrelevant]
  refine ⟨?_, ?_, rfl, ?_, fun host => getSocketPath_underDir st.socketDir host⟩
  · exact connections_after_cleanup_fold _ st
      (fun p hp => List.mem_map.mpr ⟨p, hp, rfl⟩)
  · intro p hp
    simp only [List.mem_filter] at hp
    rw [socketDir_after_cleanup_fold] at hp
    simpa using hp.2
  · intro closeOk2
    simp only [foldl_cleanup_closeOk_irrelevant]

/-! ## C7 — an interrupt during a broadcast aborts only that command -/

/-- C7: when an operator interrupt arrives while a broadcast command is
executing, only that dispatch's cancellation scope is cancelled: the loop
prints the interrupted notice, continues to the next event instead of
terminating, leaves the connection manager untouched (no connection
closed, none established), and a subsequent command runs exactly one
execution per existing connection through its stored control socket
without establishing anything. -/
theorem interactive_interrupt_only_cancels_command
    (hostsL : List String) (fs : List (List Char)) (scpOk : String → Bool)
    (st : MState) (verbose : Bool) (line : List Char)
    (hd : isDefaultLine (trimSpace line) = true) :
    (loopIter hostsL fs scpOk st verbose line true).2.1 = .continueLoop ∧
    (loopIter hostsL fs scpOk st verbose line true).2.2.1 = st ∧
    IEvent.interruptNotice ∈ (loopIter hostsL fs scpOk st verbose line true).1 ∧
    (loopIter hostsL fs scpOk st verbose line true).1.countP isConnClosed = 0 ∧
    (loopIter hostsL fs scpOk st verbose line true).1.countP isEstablished = 0 ∧
    (∀ line2, isDefaultLine (trimSpace line2) = true →
      (loopIter hostsL fs scpOk st verbose line2 false).1.countP isEstablished = 0 ∧
      (loopIter hostsL fs scpOk st verbose line2 false).1.filter isExecStarted
        = st.connections.map (fun p => IEvent.execStarted p.1 p.2.socketPath)) := by
  have hdefault : ∀ l, isDefaultLine (trimSpace l) = true → ∀ interrupted,
      loopIter hostsL fs scpOk st verbose l interrupted
        = ((if interrupted then [.interruptNotice] else []) ++ executeCommandStreaming st,
           .continueLoop, st, verbose) := by
    intro l hl interrupted
    unfold isDefaultLine at hl
    rw [Bool.not_eq_true'] at hl
    simp only [Bool.or_eq_false_iff] at hl
    obtain ⟨⟨⟨⟨⟨⟨h1, h2⟩, h3⟩, h4⟩, h5⟩, h6⟩, h7⟩ := hl
    unfold loopIter
    rw [if_neg (by simp [h1]),
      if_neg (by
        rintro (e | e)
        · rw [e] at h2; simp at h2
        · rw [e] at h3; simp at h3),
      if_neg (by simpa using h4),
      if_neg (by simpa using h5),
      if_neg (by simp [h6]),
      if_neg (by simpa using h7)]
  refine ⟨?_, ?_, ?_, ?_, ?_, ?_⟩
  · rw [hdefault line hd true]
  · rw [hdefault line hd true]
  · rw [hdefault line hd true]
    simp
  · rw [hdefault line hd true]
    rw [List.countP_append]
    have h2 : (executeCommandStreaming st).countP isConnClosed = 0 := by
      rw [List.countP_eq_zero]
      intro a ha
      obtain ⟨p, -, rfl⟩ := List.mem_map.mp ha
      simp [isConnClosed]
    simp [h2, isConnClosed]
  · rw [hdefault line hd true]
    rw [List.countP_append]
    have h2 : (executeCommandStreaming st).countP isEstablished = 0 := by
      rw [List.countP_eq_zero]
      intro a ha
      obtain ⟨p, -, rfl⟩ := List.mem_map.mp ha
      simp [isEstablished]
    simp [h2, isEstablished]
  · intro line2 hd2
    rw [hdefault line2 hd2 false]
    simp only [Bool.false_eq_true, if_false, List.nil_append]
    constructor
    · rw [List.countP_eq_zero]
      intro a ha
      obtain ⟨p, -, rfl⟩ := List.mem_map.mp ha
      simp [isEstablished]
    · unfold executeCommandStreaming
      rw [List.filter_eq_self.mpr]
      intro a ha
      obtain ⟨p, -, rfl⟩ := List.mem_map.mp ha
      simp [isExecStarted]

/-- Witness for `interactive_interrupt_only_cancels_command`: one live
connection, an interrupted `date` broadcast, then a second `uptime`
broadcast reusing the same connection. -/
theorem interactive_interrupt_only_cancels_command_witness :
    (loopIter ["h1"] [] (fun _ => true) demoStFresh true "date".data true).2.1
      = LoopAction.continueLoop ∧
    (loopIter ["h1"] [] (fun _ => true) demoStFresh true "date".data true).2.2.1
      = demoStFresh ∧
    IEvent.interruptNotice
      ∈ (loopIter ["h1"] [] (fun _ => true) demoStFresh true "date".data true).1 ∧
    (loopIter ["h1"] [] (fun _ => true) demoStFresh true "uptime".data false).1.filter
        isExecStarted
      = demoStFresh.connections.map (fun p => IEvent.execStarted p.1 p.2.socketPath) := by
  have h := interactive_interrupt_only_cancels_command ["h1"] [] (fun _ => true)
    demoStFresh true "date".data (by decide)
  exact ⟨h.1, h.2.1, h.2.2.1, (h.2.2.2.2.2 "uptime".data (by decide)).2⟩

/-! ## C2 — per-host order preservation: the `splitFirst` lemma stack -/

/-- A prefix of `x ++ c :: y` is a prefix of `x`, unless it is long enough
to contain the `c`. -/
theorem prefix_append_cons {c : Char} :
    ∀ (pat x : List Char) {y : List Char},
      pat <+: (x ++ c :: y) → pat <+: x ∨ c ∈ pat := by
  intro pat
  induction pat with
  | nil => intro x y _; exact Or.inl (List.nil_prefix)
  | cons p ps ih =>
    intro x y h
    cases x with
    | nil =>
      obtain ⟨t, ht⟩ := h
      rw [List.cons_append, List.nil_append] at ht
      have hpc : p = c := (List.cons.injEq .. ▸ ht).1
      exact Or.inr (hpc ▸ List.mem_cons_self p ps)
    | cons a x' =>
      obtain ⟨t, ht⟩ := h
      rw [List.cons_append, List.cons_append] at ht
      have hpa : p = a := (List.cons.injEq .. ▸ ht).1
      have ht2 : ps ++ t = x' ++ c :: y := (List.cons.injEq .. ▸ ht).2
      rcases ih x' ⟨t, ht2⟩ with h1 | h1
      · obtain ⟨u, hu⟩ := h1
        exact Or.inl ⟨u, by rw [List.cons_append, hu, hpa]⟩
      · exact Or.inr (List.mem_cons_of_mem p h1)

/-- `splitFirst` on the empty string finds nothing (for a non-empty
pattern). -/
theorem splitFirst_nil {pat : List Char} (hpat : pat ≠ []) :
    splitFirst pat [] = none := by
  rw [splitFirst]
  simp [List.isEmpty_iff, hpat]

/-- Scanning one marker-free, newline-terminated line: the first occurrence
of a newline-free pattern can only lie beyond the terminating newline. -/
theorem splitFirst_line_step (pat : List Char) (hpat : pat ≠ [])
    (hnl : nlChar ∉ pat) :
    ∀ (l : List Char) {r : List Char}, ¬ pat <:+: l →
      splitFirst pat (l ++ nlChar :: r)
        = (splitFirst pat r).map (fun p => (l ++ nlChar :: p.1, p.2)) := by
  intro l
  induction l with
  | nil =>
    intro r _
    rw [List.nil_append, splitFirst]
    rw [if_neg ?hpre]
    case hpre =>
      intro hp
      rw [List.isPrefixOf_iff_prefix] at hp
      cases pat with
      | nil => exact hpat rfl
      | cons q qs =>
        obtain ⟨t, ht⟩ := hp
        rw [List.cons_append] at ht
        have hq : q = nlChar := (List.cons.injEq .. ▸ ht).1
        exact hnl (hq ▸ List.mem_cons_self q qs)
    cases hsp : splitFirst pat r with
    | none => simp
    | some p => cases p; simp
  | cons a l' ih =>
    intro r hinf
    rw [List.cons_append, splitFirst]
    rw [if_neg ?hpre2]
    case hpre2 =>
      intro hp
      rw [List.isPrefixOf_iff_prefix] at hp
      have hp2 : pat <+: (a :: l') ++ nlChar :: r := by rwa [List.cons_append]
      rcases prefix_append_cons pat (a :: l') hp2 with hx | hc
      · exact hinf hx.isInfix
      · exact hnl hc
    have hinf' : ¬ pat <:+: l' := by
      intro hi
      obtain ⟨u, v, huv⟩ := hi
      exact hinf ⟨a :: u, v, by rw [← huv]; rfl⟩
    rw [ih hinf']
    cases hsp : splitFirst pat r with
    | none => simp
    | some p => cases p; simp

/-- `splitFirst` at an immediate pattern occurrence. -/
theorem splitFirst_self_append (pat B : List Char) (hpat : pat ≠ []) :
    splitFirst pat (pat ++ B) = some ([], B) := by
  cases pat with
  | nil => exact absurd rfl hpat
  | cons q qs =>
    rw [List.cons_append, splitFirst]
    rw [if_pos ?hpre3]
    case hpre3 =>
      rw [List.isPrefixOf_iff_prefix, ← List.cons_append]
      exact List.prefix_append _ _
    rw [show (q :: (qs ++ B)) = (q :: qs) ++ B from rfl]
    rw [List.drop_left]

/-- The buffer built from marker-free lines followed by the marker and a
tail splits exactly at the marker. -/
theorem splitFirst_joinNl_marker (pat B : List Char) (hpat : pat ≠ [])
    (hnl : nlChar ∉ pat) :
    ∀ (L : List (List Char)), (∀ l ∈ L, ¬ pat <:+: l) →
      splitFirst pat (joinNl L ++ (pat ++ B)) = some (joinNl L, B) := by
  intro L
  induction L with
  | nil =>
    intro _
    rw [joinNl, List.nil_append, splitFirst_self_append pat B hpat]
  | cons l L' ih =>
    intro hL
    rw [joinNl, List.append_assoc, List.cons_append]
    rw [splitFirst_line_step pat hpat hnl l (hL l (List.mem_cons_self l L'))]
    rw [ih (fun l' hl' => hL l' (List.mem_cons_of_mem l hl'))]
    rfl

/-- A buffer consisting only of marker-free lines does not contain the
marker. -/
theorem splitFirst_joinNl_none (pat : List Char) (hpat : pat ≠ [])
    (hnl : nlChar ∉ pat) :
    ∀ (L : List (List Char)), (∀ l ∈ L, ¬ pat <:+: l) →
      splitFirst pat (joinNl L) = none := by
  intro L
  induction L with
  | nil => intro _; rw [joinNl, splitFirst_nil hpat]
  | cons l L' ih =>
    intro hL
    rw [joinNl]
    rw [splitFirst_line_step pat hpat hnl l (hL l (List.mem_cons_self l L'))]
    rw [ih (fun l' hl' => hL l' (List.mem_cons_of_mem l hl'))]
    rfl

/-- Splitting at newlines always yields at least one part (as Go's
`strings.Split` does). -/
theorem splitOnNl_ne_nil (s : List Char) : splitOnNl s ≠ [] := by
  cases s with
  | nil => simp [splitOnNl]
  | cons c rest =>
    rw [splitOnNl]
    split
    · simp
    · split <;> simp

/-- Splitting a newline-terminated, newline-free line off the front. -/
theorem splitOnNl_append_cons (l : List Char) {r : List Char} (hl : nlChar ∉ l) :
    splitOnNl (l ++ nlChar :: r) = l :: splitOnNl r := by
  induction l with
  | nil =>
    rw [List.nil_append, splitOnNl, if_pos rfl]
  | cons c l' ih =>
    have hc : ¬ c = nlChar := fun e => hl (e ▸ List.mem_cons_self c l')
    rw [List.cons_append, splitOnNl, if_neg hc,
      ih (fun hm => hl (List.mem_cons_of_mem c hm))]

/-- `joinNl` distributes over append. -/
theorem joinNl_append (A B : List (List Char)) :
    joinNl (A ++ B) = joinNl A ++ joinNl B := by
  induction A with
  | nil => rw [List.nil_append, joinNl, List.nil_append]
  | cons l A' ih => rw [List.cons_append, joinNl, joinNl, ih, List.append_assoc]; rfl

/-- Splitting the newline-joined lines recovers them (plus the final empty
part after the last newline). -/
theorem splitOnNl_joinNl (L : List (List Char)) (h : ∀ l ∈ L, nlChar ∉ l) :
    splitOnNl (joinNl L) = L ++ [[]] := by
  induction L with
  | nil => rw [joinNl]; rfl
  | cons l L' ih =>
    rw [joinNl, splitOnNl_append_cons l (h l (List.mem_cons_self l L')),
      ih (fun l' hl' => h l' (List.mem_cons_of_mem l hl'))]
    rfl

/-- Appending a final newline appends a final empty part to the split. -/
theorem splitOnNl_append_nl (u : List Char) :
    splitOnNl (u ++ [nlChar]) = splitOnNl u ++ [[]] := by
  induction u with
  | nil => rfl
  | cons c u' ih =>
    by_cases hc : c = nlChar
    · rw [List.cons_append]
      simp only [splitOnNl]
      rw [if_pos hc, if_pos hc, ih]
      rfl
    · rw [List.cons_append]
      simp only [splitOnNl]
      rw [if_neg hc, if_neg hc, ih]
      cases hsp : splitOnNl u' with
      | nil => exact absurd hsp (splitOnNl_ne_nil u')
      | cons s ss =>
        rw [List.cons_append]
        rfl

/-- Appending a non-newline character extends the last part of the split. -/
theorem splitOnNl_append_ne_nl (u : List Char) {c : Char} (hc : ¬ c = nlChar) :
    splitOnNl (u ++ [c]) = appendLast c (splitOnNl u) := by
  induction u with
  | nil =>
    rw [List.nil_append]
    simp only [splitOnNl]
    rw [if_neg hc]
    rfl
  | cons d u' ih =>
    by_cases hd : d = nlChar
    · rw [List.cons_append]
      simp only [splitOnNl]
      rw [if_pos hd, if_pos hd, ih]
      cases hsp : splitOnNl u' with
      | nil => exact absurd hsp (splitOnNl_ne_nil u')
      | cons s ss => rfl
    · rw [List.cons_append]
      simp only [splitOnNl]
      rw [if_neg hd, if_neg hd, ih]
      cases hsp : splitOnNl u' with
      | nil => exact absurd hsp (splitOnNl_ne_nil u')
      | cons s ss =>
        cases ss with
        | nil => rfl
        | cons s2 ss2 => rfl

/-- A trailing whitespace character does not change a trimmed line. -/
theorem trimSpace_append_space (s : List Char) {c : Char}
    (hc : isSpaceChar c = true) : trimSpace (s ++ [c]) = trimSpace s := by
  unfold trimSpace trimRightSpace
  rw [List.reverse_append]
  simp only [List.reverse_singleton, List.singleton_append, List.dropWhile_cons, hc]
  rw [if_pos trivial]

/-- The empty line is never delivered. -/
theorem emitLine_nil (hostS colorS : String) :
    emitLine hostS colorS [] = none := rfl

/-- A trailing whitespace character does not change what a line delivers. -/
theorem emitLine_append_space (hostS colorS : String) (s : List Char) {c : Char}
    (hc : isSpaceChar c = true) :
    emitLine hostS colorS (s ++ [c]) = emitLine hostS colorS s := by
  unfold emitLine
  rw [trimSpace_append_space s hc]

/-- Extending the last split part by a whitespace character does not change
the delivered records. -/
theorem filterMap_emitLine_appendLast (hostS colorS : String) {c : Char}
    (hc : isSpaceChar c = true) (l : List (List Char)) :
    (appendLast c l).filterMap (emitLine hostS colorS)
      = l.filterMap (emitLine hostS colorS) := by
  induction l with
  | nil =>
    have h1 : emitLine hostS colorS [c] = none := by
      have := emitLine_append_space hostS colorS [] hc
      rwa [List.nil_append, emitLine_nil] at this
    simp [appendLast, h1]
  | cons s ss ih =>
    cases ss with
    | nil =>
      have := emitLine_append_space hostS colorS s hc
      simp [appendLast, List.filterMap_cons, this]
    | cons s2 ss2 =>
      rw [show appendLast c (s :: s2 :: ss2) = s :: appendLast c (s2 :: ss2) from rfl]
      rw [List.filterMap_cons, List.filterMap_cons, ih]

/-- Appending trailing `\r`/`\n` characters to a buffer does not change the
records its split delivers. -/
theorem filterMap_emitLine_splitOnNl_append (hostS colorS : String) :
    ∀ (s : List Char), (∀ c ∈ s, (c == '\r' || c == '\n') = true) → ∀ t,
      (splitOnNl (t ++ s)).filterMap (emitLine hostS colorS)
        = (splitOnNl t).filterMap (emitLine hostS colorS) := by
  intro s
  induction s using List.reverseRecOn with
  | nil => intro _ t; rw [List.append_nil]
  | append_singleton s' c ih =>
    intro hall t
    have hc := hall c (by simp)
    have hs' : ∀ c' ∈ s', (c' == '\r' || c' == '\n') = true :=
      fun c' h' => hall c' (by simp [h'])
    rw [← List.append_assoc]
    by_cases hcn : c = nlChar
    · subst hcn
      rw [splitOnNl_append_nl, List.filterMap_append]
      simp only [List.filterMap_cons, emitLine_nil, List.filterMap_nil, List.append_nil]
      exact ih hs' t
    · rw [splitOnNl_append_ne_nl _ hcn]
      have hcsp : isSpaceChar c = true := by
        rcases Bool.or_eq_true_iff.mp hc with h | h
        · have : c = '\r' := by simpa using h
          subst this; rfl
        · have : c = '\n' := by simpa using h
          exact absurd this hcn
      rw [filterMap_emitLine_appendLast hostS colorS hcsp]
      exact ih hs' t

/-- Go's `TrimRight(s, "\r\n")` before splitting does not change the
delivered records. -/
theorem filterMap_emitLine_trimRightRN (hostS colorS : String) (x : List Char) :
    (splitOnNl (trimRightRN x)).filterMap (emitLine hostS colorS)
      = (splitOnNl x).filterMap (emitLine hostS colorS) := by
  have hx : x = trimRightRN x
      ++ (x.reverse.takeWhile (fun c => c == '\r' || c == '\n')).reverse := by
    unfold trimRightRN
    rw [← List.reverse_append, List.takeWhile_append_dropWhile, List.reverse_reverse]
  have hmem : ∀ c ∈ (x.reverse.takeWhile (fun c => c == '\r' || c == '\n')).reverse,
      (c == '\r' || c == '\n') = true := by
    intro c hcm
    exact @List.mem_takeWhile_imp Char (fun c => c == '\r' || c == '\n') x.reverse c
      (List.mem_reverse.mp hcm)
  conv_rhs => rw [hx]
  rw [filterMap_emitLine_splitOnNl_append hostS colorS _ hmem (trimRightRN x)]

/-- A string without escape characters passes through `stripAnsiGo`
unchanged (for any fuel). -/
theorem stripAnsiGo_of_no_esc :
    ∀ (fuel : Nat) (s : List Char), escChar ∉ s → stripAnsiGo fuel s = s := by
  intro fuel
  induction fuel with
  | zero => intro s _; cases s <;> rfl
  | succ fuel ih =>
    intro s hs
    cases s with
    | nil => rfl
    | cons c rest =>
      have hc : ¬ c = escChar := fun e => hs (e ▸ List.mem_cons_self c rest)
      rw [stripAnsiGo, if_neg hc, ih rest (fun hm => hs (List.mem_cons_of_mem c hm))]

/-- A string without escape characters passes through `stripAnsi`
unchanged. -/
theorem stripAnsi_of_no_esc {s : List Char} (hs : escChar ∉ s) :
    stripAnsi s = s := stripAnsiGo_of_no_esc s.length s hs

/-- Delivering the buffered output of newline-free lines delivers exactly
their trimmed non-blank members, in order. -/
theorem emitFromOutput_joinNl (hostS colorS : String) (L : List (List Char))
    (h : ∀ l ∈ L, nlChar ∉ l) :
    emitFromOutput hostS colorS (joinNl L) = L.filterMap (emitLine hostS colorS) := by
  unfold emitFromOutput
  rw [filterMap_emitLine_trimRightRN, splitOnNl_joinNl L h, List.filterMap_append]
  simp [emitLine_nil]

/-- The reader's loop invariant: with marker-free complete lines `P`
buffered, reading the chunks of the lines `L` followed by the prompt
marker delivers exactly the trimmed non-blank lines of `P ++ L`, in
order. -/
theorem readLoop_chunks (hostS colorS : String) (pat : List Char)
    (hm : GoodMarker pat) :
    ∀ (L P : List (List Char)),
      (∀ l ∈ L, GoodLine pat l) →
      (∀ l ∈ P, ¬ pat <:+: l) →
      readLoop pat hostS colorS (joinNl P) (L.map (fun l => l ++ [nlChar]) ++ [pat])
        = emitFromOutput hostS colorS (joinNl (P ++ L)) := by
  obtain ⟨hpat, hnl, hesc, hlast⟩ := hm
  intro L
  induction L with
  | nil =>
    intro P _ hP
    rw [List.map_nil, List.nil_append, readLoop, readLoop]
    unfold processChunk
    rw [if_neg (by simp [List.isEmpty_iff, hpat])]
    rw [stripAnsi_of_no_esc hesc]
    rw [if_neg (by rw [List.isPrefixOf_iff_prefix]; exact hlast)]
    have hsp : splitFirst pat (joinNl P ++ pat) = some (joinNl P, []) := by
      have := splitFirst_joinNl_marker pat [] hpat hnl P hP
      rwa [List.append_nil] at this
    dsimp only
    rw [hsp]
    rw [List.append_nil, List.append_nil]
  | cons l L' ih =>
    intro P hL hP
    have hgl := hL l (List.mem_cons_self l L')
    obtain ⟨hlnl, hlesc, hlinf, hllast⟩ := hgl
    rw [List.map_cons, List.cons_append, readLoop]
    unfold processChunk
    rw [if_neg (by simp)]
    rw [stripAnsi_of_no_esc (by
      intro hm2
      rcases List.mem_append.mp hm2 with h1 | h1
      · exact hlesc h1
      · have : escChar = nlChar := by simpa using h1
        exact absurd this (by decide))]
    rw [if_neg (by
      rw [List.isPrefixOf_iff_prefix]
      intro hp
      rcases prefix_append_cons lastLoginMarker l (by simpa using hp) with h1 | h1
      · exact hllast h1
      · exact absurd h1 (by decide))]
    have hbuf : joinNl P ++ (l ++ [nlChar]) = joinNl (P ++ [l]) := by
      rw [joinNl_append]
      rfl
    rw [hbuf]
    have hP' : ∀ l' ∈ P ++ [l], ¬ pat <:+: l' := by
      intro l' hl'
      rcases List.mem_append.mp hl' with h1 | h1
      · exact hP l' h1
      · have : l' = l := by simpa using h1
        exact this ▸ hlinf
    dsimp only
    rw [splitFirst_joinNl_none pat hpat hnl (P ++ [l]) hP']
    rw [ih (P ++ [l]) (fun l' hl' => hL l' (List.mem_cons_of_mem l hl')) hP']
    rw [List.nil_append, List.append_assoc]
    rfl

/-- `ReadHostOutput` on the stream of lines `L` followed by the prompt
marker delivers exactly the trimmed non-blank lines of `L`, in their
original order (the delivered sequence is the order-preserving
`filterMap` image of `L`). -/
theorem readHostOutput_eq_filterMap (hostS colorS : String) (pat : List Char)
    (L : List (List Char)) (hm : GoodMarker pat)
    (hL : ∀ l ∈ L, GoodLine pat l) :
    readHostOutput hostS colorS pat (chunksOf L pat)
      = L.filterMap (emitLine hostS colorS) := by
  unfold readHostOutput chunksOf
  have h := readLoop_chunks hostS colorS pat hm L [] hL (by intro l hl; cases hl)
  rw [show joinNl [] = [] from rfl] at h
  rw [h, List.nil_append]
  exact emitFromOutput_joinNl hostS colorS L (fun l hl => (hL l hl).1)

/-- Filtering an interleaving by a predicate that holds on every record of
the left component and on none of the right recovers the left component
exactly (in its original order). -/
theorem Interleave.filter_left {p : HostOutput → Bool} :
    ∀ {xs ys zs : List HostOutput}, Interleave xs ys zs →
      (∀ a ∈ xs, p a = true) → (∀ a ∈ ys, p a = false) →
      zs.filter p = xs := by
  intro xs ys zs h
  induction h with
  | nil => intro _ _; rfl
  | left h ih =>
    intro hx hy
    rename_i x xs' ys' zs'
    rw [List.filter_cons, if_pos (by exact hx x (List.mem_cons_self x xs'))]
    rw [ih (fun a ha => hx a (List.mem_cons_of_mem x ha)) hy]
  | right h ih =>
    intro hx hy
    rename_i y xs' ys' zs'
    rw [List.filter_cons, if_neg (by simp [hy y (List.mem_cons_self y ys')])]
    exact ih hx (fun a ha => hy a (List.mem_cons_of_mem y ha))

/-- Every record the reader delivers is tagged with the reader's host. -/
theorem readHostOutput_host_eq (hostS colorS : String) (pat : List Char)
    (chunks : List (List Char)) :
    ∀ r ∈ readHostOutput hostS colorS pat chunks, r.host = hostS := by
  unfold readHostOutput
  generalize ([] : List Char) = buf
  induction chunks generalizing buf with
  | nil => intro r hr; cases hr
  | cons data rest ih =>
    intro r hr
    rw [readLoop] at hr
    rcases List.mem_append.mp hr with h1 | h1
    · -- the record came from processChunk, i.e. from emitFromOutput
      unfold processChunk at h1
      split at h1
      · cases h1
      · have h1' : r ∈ (if lastLoginMarker.isPrefixOf (stripAnsi data) = true
            then (buf, ([] : List HostOutput))
            else
              match splitFirst pat (buf ++ stripAnsi data) with
              | some (before, _) => ([], emitFromOutput hostS colorS before)
              | none => (buf ++ stripAnsi data, [])).2 := h1
        split at h1'
        · cases h1'
        · split at h1'
          · obtain ⟨l, -, hl⟩ :=
              List.mem_filterMap.mp (by simpa [emitFromOutput] using h1')
            unfold emitLine at hl
            have hl' : (if (trimSpace l).isEmpty = true then none
                else some (⟨hostS, trimSpace l, colorS⟩ : HostOutput)) = some r := hl
            split at hl'
            · cases hl'
            · cases Option.some.inj hl'
              rfl
          · cases h1'
    · exact ih _ r h1

/-- C2: per-host order preservation.  The records `ReadHostOutput` delivers
for a host are exactly the trimmed non-blank lines the host produced, in
the host's own order (a `filterMap` image of the line sequence), and this
per-host order survives any interleaving with other hosts' records in the
shared output channel: filtering the merged sequence by the host recovers
precisely that image.  No cross-host ordering is claimed: the interleaving
is arbitrary. -/
theorem readHostOutput_per_host_order (hostS colorS : String) (pat : List Char)
    (L : List (List Char)) (other M : List HostOutput)
    (hm : GoodMarker pat)
    (hL : ∀ l ∈ L, GoodLine pat l)
    (hI : Interleave (readHostOutput hostS colorS pat (chunksOf L pat)) other M)
    (hother : ∀ r ∈ other, ¬ r.host = hostS) :
    readHostOutput hostS colorS pat (chunksOf L pat)
      = L.filterMap (emitLine hostS colorS) ∧
    M.filter (fun r => r.host == hostS) = L.filterMap (emitLine hostS colorS) := by
  have he := readHostOutput_eq_filterMap hostS colorS pat L hm hL
  refine ⟨he, ?_⟩
  rw [← he]
  exact hI.filter_left
    (fun a ha => by
      have := readHostOutput_host_eq hostS colorS pat (chunksOf L pat) a ha
      simp [this])
    (fun a ha => by
      have := hother a ha
      simpa using this)

/-- Witness for `readHostOutput_per_host_order`: host `h1` produces the
lines `a`, `b`, `c` with the real `__POLYSH_PROMPT__` marker, one record of
host `h2` is interleaved between them, and filtering the merged feed by
`h1` returns `a`, `b`, `c` in order. -/
theorem readHostOutput_per_host_order_witness :
    readHostOutput "h1" "" promptMarker
        (chunksOf [['a'], ['b'], ['c']] promptMarker)
      = [⟨"h1", ['a'], ""⟩, ⟨"h1", ['b'], ""⟩, ⟨"h1", ['c'], ""⟩] ∧
    ([⟨"h1", ['a'], ""⟩, ⟨"h2", ['x'], ""⟩, ⟨"h1", ['b'], ""⟩,
        (⟨"h1", ['c'], ""⟩ : HostOutput)].filter (fun r => r.host == "h1"))
      = [⟨"h1", ['a'], ""⟩, ⟨"h1", ['b'], ""⟩, ⟨"h1", ['c'], ""⟩] := by
  have e : readHostOutput "h1" "" promptMarker
      (chunksOf [['a'], ['b'], ['c']] promptMarker)
      = [⟨"h1", ['a'], ""⟩, ⟨"h1", ['b'], ""⟩, ⟨"h1", ['c'], ""⟩] := by decide
  have hI : Interleave
      (readHostOutput "h1" "" promptMarker (chunksOf [['a'], ['b'], ['c']] promptMarker))
      [⟨"h2", ['x'], ""⟩]
      [⟨"h1", ['a'], ""⟩, ⟨"h2", ['x'], ""⟩, ⟨"h1", ['b'], ""⟩, ⟨"h1", ['c'], ""⟩] := by
    rw [e]
    exact .left (.right (.left (.left .nil)))
  have h := readHostOutput_per_host_order "h1" "" promptMarker
    [['a'], ['b'], ['c']] [⟨"h2", ['x'], ""⟩]
    [⟨"h1", ['a'], ""⟩, ⟨"h2", ['x'], ""⟩, ⟨"h1", ['b'], ""⟩, ⟨"h1", ['c'], ""⟩]
    (by constructor
        · decide
        · refine ⟨by decide, by decide, by decide⟩)
    (by intro l hl
        fin_cases hl <;> exact ⟨by decide, by decide, by decide, by decide⟩)
    hI
    (by intro r hr
        fin_cases hr
        decide)
  have hf : List.filterMap (emitLine "h1" "") [['a'], ['b'], ['c']]
      = [⟨"h1", ['a'], ""⟩, ⟨"h1", ['b'], ""⟩, ⟨"h1", ['c'], ""⟩] := by decide
  exact ⟨h.1.trans hf, h.2.trans hf⟩

/-! ## C8 — ANSI escape stripping before delivery -/

/-- A successful ANSI-sequence match consumes at least one character. -/
theorem matchAnsi_length_lt {s r : List Char} (h : matchAnsi s = some r) :
    r.length < s.length := by
  unfold matchAnsi at h
  split at h
  · rename_i rest
    split at h
    · rename_i d r' hd
      split at h
      · injection h with h
        subst h
        have h1 : (d :: r').length ≤ rest.length := by
          rw [← hd]; exact (rest.dropWhile_sublist _).length_le
        simp only [List.length_cons] at h1 ⊢
        omega
      · exact absurd h (by simp)
    · exact absurd h (by simp)
  · exact absurd h (by simp)

/-- When every `ESC` in the input opens a complete ANSI sequence, the
stripped output contains no `ESC` at all (same fuel on both sides, enough
fuel given). -/
theorem stripAnsiGo_no_esc :
    ∀ (fuel : Nat) (s : List Char), s.length ≤ fuel →
      allEscOpenGo fuel s = true → escChar ∉ stripAnsiGo fuel s := by
  intro fuel
  induction fuel with
  | zero =>
    intro s hlen hall
    cases s with
    | nil => intro hm; cases hm
    | cons c rest => simp at hlen
  | succ fuel ih =>
    intro s hlen hall
    cases s with
    | nil => intro hm; cases hm
    | cons c rest =>
      rw [stripAnsiGo]
      rw [allEscOpenGo] at hall
      by_cases hc : c = escChar
      · rw [if_pos hc] at hall ⊢
        cases hma : matchAnsi rest with
        | some r =>
          rw [hma] at hall
          have hr : r.length ≤ fuel := by
            have h1 := matchAnsi_length_lt hma
            simp only [List.length_cons] at hlen
            omega
          exact ih r hr hall
        | none => rw [hma] at hall; cases hall
      · rw [if_neg hc] at hall ⊢
        intro hm
        rcases List.mem_cons.mp hm with h1 | h1
        · exact hc h1.symm
        · have hrest : rest.length ≤ fuel := by
            simp only [List.length_cons] at hlen
            omega
          exact ih rest hrest hall h1

/-- When every `ESC` in the input opens a complete ANSI sequence, the
stripped output contains no `ESC`. -/
theorem stripAnsi_no_esc {s : List Char} (h : allEscOpen s = true) :
    escChar ∉ stripAnsi s :=
  stripAnsiGo_no_esc s.length s (Nat.le_refl _) h

/-- A string without `ESC` contains no ANSI escape sequence. -/
theorem containsAnsiSeq_eq_false_of_no_esc {s : List Char} (h : escChar ∉ s) :
    containsAnsiSeq s = false := by
  induction s with
  | nil => rfl
  | cons c rest ih =>
    rw [containsAnsiSeq]
    have hc : ¬ c = escChar := fun e => h (e ▸ List.mem_cons_self c rest)
    rw [ih (fun hm => h (List.mem_cons_of_mem c hm))]
    simp [hc]

/-- The part before the first pattern occurrence is made of characters of
the scanned string. -/
theorem splitFirst_before_subset (pat : List Char) :
    ∀ (s b a : List Char), splitFirst pat s = some (b, a) → ∀ c ∈ b, c ∈ s := by
  intro s
  induction s with
  | nil =>
    intro b a h c hc
    rw [splitFirst] at h
    split at h
    · cases Option.some.inj h
      cases hc
    · cases h
  | cons d s' ih =>
    intro b a h c hc
    rw [splitFirst] at h
    split at h
    · cases Option.some.inj h
      cases hc
    · revert h
      cases hsp : splitFirst pat s' with
      | none => intro h; cases h
      | some p =>
        intro h
        cases Option.some.inj h
        rcases List.mem_cons.mp hc with h1 | h1
        · exact h1 ▸ List.mem_cons_self d s'
        · exact List.mem_cons_of_mem d (ih p.1 p.2 (by rw [hsp]) c h1)

/-- Each split part is made of characters of the split string. -/
theorem splitOnNl_mem_subset :
    ∀ (s : List Char), ∀ seg ∈ splitOnNl s, ∀ c ∈ seg, c ∈ s := by
  intro s
  induction s with
  | nil =>
    intro seg hseg c hc
    have : seg = [] := by simpa [splitOnNl] using hseg
    rw [this] at hc
    cases hc
  | cons d s' ih =>
    intro seg hseg c hc
    rw [splitOnNl] at hseg
    by_cases hd : d = nlChar
    · rw [if_pos hd] at hseg
      rcases List.mem_cons.mp hseg with h1 | h1
      · rw [h1] at hc; cases hc
      · exact List.mem_cons_of_mem d (ih seg h1 c hc)
    · rw [if_neg hd] at hseg
      cases hsp : splitOnNl s' with
      | nil => exact absurd hsp (splitOnNl_ne_nil s')
      | cons t ts =>
        rw [hsp] at hseg
        rcases List.mem_cons.mp hseg with h1 | h1
        · rw [h1] at hc
          rcases List.mem_cons.mp hc with h2 | h2
          · exact h2 ▸ List.mem_cons_self d s'
          · exact List.mem_cons_of_mem d
              (ih t (by rw [hsp]; exact List.mem_cons_self t ts) c h2)
        · exact List.mem_cons_of_mem d
            (ih seg (by rw [hsp]; exact List.mem_cons_of_mem t h1) c hc)

/-- Trimming trailing `\r\n` keeps only characters of the input. -/
theorem trimRightRN_subset (s : List Char) : ∀ c ∈ trimRightRN s, c ∈ s := by
  intro c hc
  unfold trimRightRN at hc
  rw [List.mem_reverse] at hc
  have := (List.dropWhile_sublist (l := s.reverse)
    (p := fun c => c == '\r' || c == '\n')).subset hc
  exact List.mem_reverse.mp this

/-- Trimming whitespace keeps only characters of the input. -/
theorem trimSpace_subset (s : List Char) : ∀ c ∈ trimSpace s, c ∈ s := by
  intro c hc
  unfold trimSpace trimLeftSpace trimRightSpace at hc
  have h1 := (List.dropWhile_sublist (l := (s.reverse.dropWhile isSpaceChar).reverse)
    (p := isSpaceChar)).subset hc
  rw [List.mem_reverse] at h1
  have h2 := (List.dropWhile_sublist (l := s.reverse) (p := isSpaceChar)).subset h1
  exact List.mem_reverse.mp h2

/-- Every delivered record's text is made of characters of the buffered
command output. -/
theorem emitFromOutput_data_subset (hostS colorS : String) (x : List Char) :
    ∀ r ∈ emitFromOutput hostS colorS x, ∀ c ∈ r.data, c ∈ x := by
  intro r hr c hc
  obtain ⟨l, hlmem, hl⟩ := List.mem_filterMap.mp hr
  have hra : r.data = trimSpace l ∧ r.host = hostS := by
    unfold emitLine at hl
    have hl' : (if (trimSpace l).isEmpty = true then none
        else some (⟨hostS, trimSpace l, colorS⟩ : HostOutput)) = some r := hl
    split at hl'
    · cases hl'
    · cases Option.some.inj hl'
      exact ⟨rfl, rfl⟩
  rw [hra.1] at hc
  have h1 : c ∈ l := trimSpace_subset l c hc
  have h2 : c ∈ trimRightRN x := splitOnNl_mem_subset (trimRightRN x) l hlmem c h1
  exact trimRightRN_subset x c h2

/-- The reader's loop delivers only escape-free text when the buffer is
escape-free and every chunk is well-behaved (each `ESC` in it opens a
complete ANSI sequence, hence is removed by the strip). -/
theorem readLoop_no_esc (hostS colorS : String) (pat : List Char) :
    ∀ (chunks : List (List Char)) (buf : List Char),
      escChar ∉ buf →
      (∀ ch ∈ chunks, allEscOpen ch = true) →
      ∀ r ∈ readLoop pat hostS colorS buf chunks, escChar ∉ r.data := by
  intro chunks
  induction chunks with
  | nil => intro buf _ _ r hr; cases hr
  | cons data rest ih =>
    intro buf hbuf hch r hr
    have hdata : escChar ∉ stripAnsi data :=
      stripAnsi_no_esc (hch data (List.mem_cons_self data rest))
    have hbufdata : escChar ∉ buf ++ stripAnsi data := by
      intro hm
      rcases List.mem_append.mp hm with h1 | h1
      · exact hbuf h1
      · exact hdata h1
    rw [readLoop] at hr
    rcases List.mem_append.mp hr with h1 | h1
    · -- delivered by this chunk
      unfold processChunk at h1
      split at h1
      · cases h1
      · have h1' : r ∈ (if lastLoginMarker.isPrefixOf (stripAnsi data) = true
            then (buf, ([] : List HostOutput))
            else
              match splitFirst pat (buf ++ stripAnsi data) with
              | some (before, _) => ([], emitFromOutput hostS colorS before)
              | none => (buf ++ stripAnsi data, [])).2 := h1
        split at h1'
        · cases h1'
        · revert h1'
          cases hsp : splitFirst pat (buf ++ stripAnsi data) with
          | none => intro h1'; cases h1'
          | some p =>
            intro h1'
            intro hm
            have hsub := emitFromOutput_data_subset hostS colorS p.1 r
              (by simpa using h1') escChar hm
            have := splitFirst_before_subset pat (buf ++ stripAnsi data) p.1 p.2
              (by rw [hsp]) escChar hsub
            exact hbufdata this
    · -- delivered by a later chunk: the new buffer is still escape-free
      have hrest : ∀ ch ∈ rest, allEscOpen ch = true :=
        fun ch hc => hch ch (List.mem_cons_of_mem data hc)
      have hbuf' : escChar ∉ (processChunk pat hostS colorS buf data).1 := by
        unfold processChunk
        split
        · exact hbuf
        · have he : ((if lastLoginMarker.isPrefixOf (stripAnsi data) = true
              then (buf, ([] : List HostOutput))
              else
                match splitFirst pat (buf ++ stripAnsi data) with
                | some (before, _) => ([], emitFromOutput hostS colorS before)
                | none => (buf ++ stripAnsi data, [])) :
                List Char × List HostOutput).1
              = (if lastLoginMarker.isPrefixOf (stripAnsi data) = true
                then buf
                else
                  match splitFirst pat (buf ++ stripAnsi data) with
                  | some _ => []
                  | none => buf ++ stripAnsi data) := by
            split
            · rfl
            · cases splitFirst pat (buf ++ stripAnsi data) with
              | none => rfl
              | some p => rfl
          rw [he]
          split
          · exact hbuf
          · cases splitFirst pat (buf ++ stripAnsi data) with
            | none => exact hbufdata
            | some p => intro hm; cases hm
      exact ih _ hbuf' hrest r h1

/-- C8 (amended claim): every record `ReadHostOutput` delivers has the
transport's ANSI styling sequences stripped: whenever each `ESC` in the
host's raw chunks opens a complete ANSI escape sequence (the output of a
well-behaved shell), the delivered text contains no `ESC` at all and in
particular no ANSI escape sequence that could corrupt the host prefix. -/
theorem readHostOutput_strips_ansi (hostS colorS : String) (pat : List Char)
    (chunks : List (List Char)) (hch : ∀ ch ∈ chunks, allEscOpen ch = true) :
    ∀ r ∈ readHostOutput hostS colorS pat chunks,
      escChar ∉ r.data ∧ containsAnsiSeq r.data = false := by
  intro r hr
  have h1 : escChar ∉ r.data :=
    readLoop_no_esc hostS colorS pat chunks [] (fun hm => by cases hm) hch r hr
  exact ⟨h1, containsAnsiSeq_eq_false_of_no_esc h1⟩

/-- Witness for `readHostOutput_strips_ansi`: a red-styled line is
delivered clean. -/
theorem readHostOutput_strips_ansi_witness :
    readHostOutput "h1" "" promptMarker
        [("\x1b[31mred\x1b[0m".data ++ [nlChar]), promptMarker]
      = [⟨"h1", "red".data, ""⟩] ∧
    escChar ∉ (⟨"h1", "red".data, ""⟩ : HostOutput).data ∧
    containsAnsiSeq (⟨"h1", "red".data, ""⟩ : HostOutput).data = false := by
  have e : readHostOutput "h1" "" promptMarker
      [("\x1b[31mred\x1b[0m".data ++ [nlChar]), promptMarker]
      = [⟨"h1", "red".data, ""⟩] := by decide
  have h := readHostOutput_strips_ansi "h1" "" promptMarker
    [("\x1b[31mred\x1b[0m".data ++ [nlChar]), promptMarker]
    (by intro ch hch; fin_cases hch <;> decide)
    ⟨"h1", "red".data, ""⟩ (by rw [e]; exact List.mem_cons_self _ _)
  exact ⟨e, h⟩

/-- C8 counterexample: the unconditional claim is false.  Go's single-pass
regex removal can make a new ANSI sequence appear: on the raw line
`ESC ESC [ 0 m [ 0 m` the stripped text is `ESC [ 0 m` — itself a complete
ANSI escape sequence — and `ReadHostOutput` delivers it verbatim, so a
delivered record can still contain an ANSI escape sequence. -/
theorem readHostOutput_can_deliver_ansi :
    readHostOutput "h1" "" promptMarker
        [(escChar :: escChar :: '[' :: '0' :: 'm' :: '[' :: '0' :: 'm' :: [nlChar]),
         promptMarker]
      = [⟨"h1", escChar :: '[' :: '0' :: 'm' :: [], ""⟩] ∧
    containsAnsiSeq (escChar :: '[' :: '0' :: 'm' :: []) = true := by
  decide

end Gosh
